import Mathlib

/-!
Shallow embedding of the peripheral-binding layer of the mlog-pico firmware:
the capability hooks by which a logic VM drives GPIO pins, a framebuffer
display and two serial transports (UART and USB CDC-ACM), together with the
asynchronous flush/receive routines that bridge the synchronous hooks to the
hardware.  Pure state is modelled explicitly: ring buffers and deques become
lists, the single-slot transmit mailbox becomes an `Option`, hardware writes
become transcripts of the calls issued.
-/

/-- Outcome of a capability hook: continue, or suspend the current processor's
instruction stream until the next scheduling point. -/
inductive InstructionResult where
  | ok
  | yield
deriving DecidableEq, Repr

/-- Logic VM values as the peripheral hooks observe them: the null sentinel or
a number.  Models the external VM crate's value type at the hook boundary. -/
inductive LValue where
  | null
  | num (x : Int)
deriving DecidableEq, Repr

/-- Conversion of a value to an array index, modelling the external VM crate's
`num_usize`: a nonnegative number converts, anything else fails. -/
def LValue.num_usize : LValue → Option Nat
  | .null => none
  | .num x => if 0 ≤ x then some x.toNat else none

/-- Conversion of a value to a signed integer, modelling the external VM
crate's `numi`: null converts to 0. -/
def LValue.numi : LValue → Int
  | .null => 0
  | .num x => x

/-- Truthiness of a value, modelling the external VM crate's `bool`: null is
falsy, a number is truthy when nonzero. -/
def LValue.truthy : LValue → Bool
  | .null => false
  | .num x => decide (x ≠ 0)

/-- `MAX_USB_PACKET_SIZE` from `main.rs`: the USB CDC-ACM packet size, also
the capacity of the receive ring buffer. -/
def MAX_USB_PACKET_SIZE : Nat := 64

/-- State owned by the USB serial asynchronous flush routine: the transmit
mailbox (`tx_buf`, message bytes) shared with the `printflush` hook, and the
`is_connected` flag set after the first successful connection wait. -/
structure SerialTxState where
  tx_buf : Option (List Nat)
  is_connected : Bool
deriving DecidableEq, Repr

/-- One run of the USB serial asynchronous flush routine (the closure returned
by `SerialData::new`): if the mailbox holds a message, take and clear it, wait
for connection once (setting the flag), write the first
`min(len, MAX_USB_PACKET_SIZE)` bytes as one packet, and write one additional
empty packet when that packet is full.  Returns the new state and the
transcript of `write_packet` calls, each entry the bytes of one packet. -/
def serialFlushTask (s : SerialTxState) : SerialTxState × List (List Nat) :=
  match s.tx_buf with
  | none => (s, [])
  | some message =>
    let n := min message.length MAX_USB_PACKET_SIZE
    (⟨none, true⟩,
      if n = MAX_USB_PACKET_SIZE
        then [message.take n, []]
        else [message.take n])

/-- The loop in `SerialData::read` that pops and discards the front `i` bytes
of the ring buffer. -/
def discardFront : List Nat → Nat → List Nat
  | buf, 0 => buf
  | buf, i + 1 => discardFront buf.tail i

/-- `SerialData::read` (USB serial): convert the address; if it is an index
within the ring buffer, discard the front `i` bytes, then pop and return the
new front byte; otherwise return null and leave the buffer unchanged.  Returns
the new ring buffer and the value handed to the VM. -/
def SerialData.read (rx_buf : List Nat) (address : LValue) : List Nat × LValue :=
  match address.num_usize with
  | some i =>
    if i < rx_buf.length then
      let buf := discardFront rx_buf i
      (buf.tail,
        match buf.head? with
        | some b => .num b
        | none => .null)
    else (rx_buf, .null)
  | none => (rx_buf, .null)

theorem discardFront_eq_drop (i : Nat) :
    ∀ buf : List Nat, discardFront buf i = buf.drop i := by
  induction i with
  | zero => intro buf; rfl
  | succ n ih =>
    intro buf
    rw [discardFront, ih buf.tail]
    cases buf <;> simp

/-- C1 counterexample: on a 65-byte message the flush routine does not
transmit the entire message (it truncates to the first 64 bytes), and it sends
the additional empty packet even though 65 is not a multiple of the packet
size. -/
theorem serial_flush_claim_counterexample :
    ¬ (((serialFlushTask ⟨some (List.replicate 65 0), true⟩).2.flatten
          = List.replicate 65 0)
        ∧ (((serialFlushTask ⟨some (List.replicate 65 0), true⟩).2.getLast?
              = some [])
            ↔ 65 % MAX_USB_PACKET_SIZE = 0)) := by
  decide

/-- C1 (amended): whenever the mailbox holds a message, the flush routine
clears the mailbox and transmits exactly one data packet holding the first
`min(len, 64)` bytes of the message, followed by one additional empty packet
exactly when the message's length is at least the packet size (i.e. when that
data packet is full); every transmitted packet is at most 64 bytes; in
particular a message of length exactly 64 produces two packets (the second
empty) and a message of length 63 produces exactly one packet. -/
theorem serial_flush_truncates (m : List Nat) (c : Bool) :
    ((serialFlushTask ⟨some m, c⟩).1 = ⟨none, true⟩)
    ∧ ((serialFlushTask ⟨some m, c⟩).2 =
        if MAX_USB_PACKET_SIZE ≤ m.length
          then [m.take MAX_USB_PACKET_SIZE, []]
          else [m])
    ∧ (∀ p ∈ (serialFlushTask ⟨some m, c⟩).2, p.length ≤ MAX_USB_PACKET_SIZE)
    ∧ (m.length = MAX_USB_PACKET_SIZE →
        (serialFlushTask ⟨some m, c⟩).2 = [m, []])
    ∧ (m.length = MAX_USB_PACKET_SIZE - 1 →
        (serialFlushTask ⟨some m, c⟩).2 = [m]) := by
  have hmain : (serialFlushTask ⟨some m, c⟩).2 =
      if MAX_USB_PACKET_SIZE ≤ m.length
        then [m.take MAX_USB_PACKET_SIZE, []]
        else [m] := by
    show (if min m.length MAX_USB_PACKET_SIZE = MAX_USB_PACKET_SIZE
        then [m.take (min m.length MAX_USB_PACKET_SIZE), []]
        else [m.take (min m.length MAX_USB_PACKET_SIZE)]) = _
    rcases le_or_lt MAX_USB_PACKET_SIZE m.length with h | h
    · rw [Nat.min_eq_right h, if_pos rfl, if_pos h]
    · rw [Nat.min_eq_left (Nat.le_of_lt h), if_neg (Nat.ne_of_lt h),
        if_neg (Nat.not_le_of_lt h), List.take_length]
  refine ⟨rfl, hmain, ?_, ?_, ?_⟩
  · intro p hp
    rw [hmain] at hp
    rcases le_or_lt MAX_USB_PACKET_SIZE m.length with h | h
    · rw [if_pos h] at hp
      simp only [List.mem_cons, List.not_mem_nil, or_false] at hp
      rcases hp with rfl | rfl
      · rw [List.length_take]; exact Nat.min_le_left _ _
      · exact Nat.zero_le _
    · rw [if_neg (Nat.not_le_of_lt h)] at hp
      simp only [List.mem_cons, List.not_mem_nil, or_false] at hp
      subst hp
      exact Nat.le_of_lt h
  · intro hlen
    rw [hmain, if_pos (Nat.le_of_eq hlen.symm), ← hlen, List.take_length]
  · intro hlen
    have h64 : MAX_USB_PACKET_SIZE = 64 := rfl
    have hlt : m.length < MAX_USB_PACKET_SIZE := by omega
    rw [hmain, if_neg (Nat.not_le_of_lt hlt)]

/-- Witness for C1 (amended) at a concrete 64-byte message. -/
theorem serial_flush_truncates_witness :
    (serialFlushTask ⟨some (List.replicate 64 5), true⟩).2
      = [List.replicate 64 5, []] :=
  (serial_flush_truncates (List.replicate 64 5) true).2.2.2.1 (by decide)

/-- C4: the USB serial read hook with in-range numeric address `i` discards
the front `i` bytes and returns the next byte (so address 0 is an ordinary
dequeue); an out-of-range or non-convertible address returns null and leaves
the ring buffer unchanged. -/
theorem serial_read_skip (buf : List Nat) (addr : LValue) :
    (∀ i, addr.num_usize = some i → i < buf.length →
      SerialData.read buf addr = (buf.drop (i + 1), .num (buf.getD i 0)))
    ∧ (∀ i, addr.num_usize = some i → buf.length ≤ i →
      SerialData.read buf addr = (buf, .null))
    ∧ (addr.num_usize = none → SerialData.read buf addr = (buf, .null)) := by
  refine ⟨?_, ?_, ?_⟩
  · intro i hi hlt
    unfold SerialData.read
    rw [hi]
    simp only [if_pos hlt, discardFront_eq_drop]
    have htail : (buf.drop i).tail = buf.drop (i + 1) := by
      rw [List.tail_drop]
    have hhead : (buf.drop i).head? = some (buf.getD i 0) := by
      rw [List.head?_drop, List.getD_eq_getElem?_getD,
        List.getElem?_eq_getElem hlt]
      rfl
    rw [htail, hhead]
  · intro i hi hge
    unfold SerialData.read
    rw [hi]
    simp only [if_neg (Nat.not_lt_of_le hge)]
  · intro hnone
    unfold SerialData.read
    rw [hnone]

/-- Witness for C4: on ring buffer `[10, 20, 30]`, reading address 1 discards
10, returns 20 and leaves `[30]`; reading address 5 returns null and leaves
the buffer unchanged. -/
theorem serial_read_skip_witness :
    SerialData.read [10, 20, 30] (.num 1) = ([30], .num 20)
    ∧ SerialData.read [30] (.num 5) = ([30], .null) := by
  constructor
  · have h := (serial_read_skip [10, 20, 30] (.num 1)).1 1 (by decide) (by decide)
    simpa using h
  · have h := (serial_read_skip [30] (.num 5)).2.1 5 (by decide) (by decide)
    simpa using h

/-- An RGB888 color. -/
structure Rgb where
  r : Nat
  g : Nat
  b : Nat
deriving DecidableEq, Repr

/-- A point on the destination surface (embedded-graphics `Point`, i32
coordinates idealized as integers). -/
structure Point where
  x : Int
  y : Int
deriving DecidableEq, Repr

/-- Componentwise addition of points (`+=` on embedded-graphics points). -/
def Point.add (p q : Point) : Point :=
  ⟨p.x + q.x, p.y + q.y⟩

/-- Rust's `as u32` cast on an integer value. -/
def u32cast (n : Int) : Nat :=
  (n % (2 ^ 32 : Int)).toNat

/-- Two's-complement wrap-around of an `i16` arithmetic result: the release
profile (the shipped firmware) wraps overflowing `i16` additions, so the
`i16` sums the renderer computes before handing coordinates to `point` are
taken modulo 2^16 into `[-32768, 32767]`. -/
def i16wrap (n : Int) : Int :=
  (n + 32768) % 65536 - 32768

/-- Horizontal alignment of rendered text (embedded-graphics `Alignment`). -/
inductive HAlign where
  | left
  | center
  | right
deriving DecidableEq, Repr

/-- Vertical baseline of rendered text (embedded-graphics `Baseline`). -/
inductive Baseline where
  | top
  | middle
  | bottom
deriving DecidableEq, Repr

/-- The VM's text alignment bitset as the display inspects it: which of the
LEFT / RIGHT / TOP / BOTTOM flags are set. -/
structure TextAlignment where
  left : Bool
  right : Bool
  top : Bool
  bottom : Bool
deriving DecidableEq, Repr

/-- The draw-command variants queued by VM drawing instructions (the external
VM crate's `DrawCommand` as consumed by `display.rs`).  Coordinate fields are
i16 values idealized as integers; the fields of the variants the renderer
intentionally ignores (`Poly`, `Image`, `Scale`, `Rotate`) are elided. -/
inductive DrawCommand where
  | clear (r g b : Nat)
  | color (r g b a : Nat)
  | stroke (width : Int)
  | line (x1 y1 x2 y2 : Int)
  | rect (x y width height : Int) (fill : Bool)
  | poly
  | triangle (x1 y1 x2 y2 x3 y3 : Int)
  | image
  | print (x y : Int) (alignment : TextAlignment) (text : String)
  | translate (x y : Int)
  | scale
  | rotate
  | reset
deriving DecidableEq, Repr

/-- A draw call issued to the destination surface, with the style it was
issued under: the transcript of what `display.rs` asks embedded-graphics to
draw. -/
inductive DrawOp where
  | clear (color : Rgb)
  | line (p1 p2 : Point) (stroke_color : Option Rgb) (stroke_width : Nat)
  | rect (top_left : Point) (width height : Nat) (fill : Bool)
      (color : Option Rgb)
  | triangle (p1 p2 p3 : Point) (fill_color : Option Rgb)
  | text (position : Point) (halign : HAlign) (baseline : Baseline)
      (text_color : Option Rgb) (content : String)
deriving DecidableEq, Repr

/-- `DisplayData`: the display renderer's state.  `stroke_color` and
`stroke_width` are the source's `line_style`, `fill_color` its `fill_style`,
`text_color` its `char_style`; `ops` is the transcript of draw calls issued to
the `display` surface so far, oldest first. -/
structure DisplayData where
  ops : List DrawOp
  width : Nat
  height : Nat
  stroke_color : Option Rgb
  stroke_width : Nat
  fill_color : Option Rgb
  text_color : Option Rgb
  translation : Point
  operations : Nat
deriving DecidableEq, Repr

/-- `DisplayData::new`: all styles start white, stroke width 1, zero
translation, zero operations. -/
def DisplayData.new (width height : Nat) : DisplayData :=
  { ops := []
    width := width
    height := height
    stroke_color := some ⟨255, 255, 255⟩
    stroke_width := 1
    fill_color := some ⟨255, 255, 255⟩
    text_color := some ⟨255, 255, 255⟩
    translation := ⟨0, 0⟩
    operations := 0 }

/-- Issue one draw call to the surface. -/
def DisplayData.emit (d : DisplayData) (op : DrawOp) : DisplayData :=
  { d with ops := d.ops ++ [op] }

/-- `DisplayData::point`: apply the translation, shift by the (1,1) origin of
the source coordinate system, and invert the y axis against the surface
height. -/
def DisplayData.point (d : DisplayData) (x y : Int) : Point :=
  let px := x + d.translation.x
  let py := y + d.translation.y
  let px := px - 1
  let py := py - 1
  ⟨px, (d.height : Int) - py - 1⟩

/-- `DisplayData::draw_command`: apply one draw command to the render state,
issuing draw calls to the surface where the command draws.  The `i16` sums
the source computes before calling `point` (`y + height` in the Rect branch,
`x + 1` and `y - 2` in the Print branch) wrap with two's-complement
semantics, via `i16wrap`. -/
def DisplayData.draw_command (d : DisplayData) (command : DrawCommand) :
    DisplayData :=
  match command with
  | .clear r g b => d.emit (.clear ⟨r, g, b⟩)
  | .color r g b a =>
    let color := if 0 < a then some (⟨r, g, b⟩ : Rgb) else none
    { d with stroke_color := color, fill_color := color, text_color := color }
  | .stroke width => { d with stroke_width := u32cast width }
  | .line x1 y1 x2 y2 =>
    d.emit (.line (d.point x1 y1) (d.point x2 y2) d.stroke_color
      d.stroke_width)
  | .rect x y width height fill =>
    d.emit (.rect (Point.add (d.point x (i16wrap (y + height))) ⟨1, 0⟩)
      (u32cast width) (u32cast height) fill
      (if fill then d.fill_color else d.stroke_color))
  | .poly => d
  | .triangle x1 y1 x2 y2 x3 y3 =>
    d.emit (.triangle (d.point x1 y1) (d.point x2 y2) (d.point x3 y3)
      d.fill_color)
  | .image => d
  | .print x y alignment text =>
    let position := d.point (i16wrap (x + 1)) (i16wrap (y - 2))
    let ph :=
      if alignment.left then (position, HAlign.left)
      else if alignment.right then
        ({ position with x := position.x - 1 }, HAlign.right)
      else (position, HAlign.center)
    let pb :=
      if alignment.bottom then (ph.1, Baseline.bottom)
      else if alignment.top then
        ({ ph.1 with y := ph.1.y + 1 }, Baseline.top)
      else (ph.1, Baseline.middle)
    d.emit (.text pb.1 ph.2 pb.2 d.text_color text)
  | .translate x y => { d with translation := Point.add d.translation ⟨x, y⟩ }
  | .scale => d
  | .rotate => d
  | .reset => { d with translation := ⟨0, 0⟩ }

/-- `DisplayData::drawflush` (the hook): apply each queued command in order,
then bump the operations counter and yield. -/
def DisplayData.drawflush (d : DisplayData) (drawbuffer : List DrawCommand) :
    DisplayData × InstructionResult :=
  let d := drawbuffer.foldl DisplayData.draw_command d
  ({ d with operations := d.operations + 1 }, .yield)

/-- Modelled from the spec: the `drawflush` instruction of the external VM
crate (not under `src/`) hands the per-tick drawbuffer to the building's
drawflush hook and the buffer is empty afterward ("the buffer is drained
exactly once per `drawflush` invocation and is empty afterward").  Returns the
new display state, the drawbuffer after the invocation, and the outcome. -/
def drawflushInstruction (d : DisplayData) (drawbuffer : List DrawCommand) :
    DisplayData × List DrawCommand × InstructionResult :=
  let r := DisplayData.drawflush d drawbuffer
  (r.1, [], r.2)

/-- Applying a queue of draw commands one at a time, oldest first: each queued
command is applied exactly once, in FIFO order. -/
def applyFIFO (d : DisplayData) : List DrawCommand → DisplayData
  | [] => d
  | c :: rest => applyFIFO (d.draw_command c) rest

/-- Whether a draw call issued to the surface can produce pixels: models the
embedded-graphics styled drawing semantics, where a primitive or text styled
with no color renders nothing.  (Degenerate geometry may also render nothing;
this is the sound upper bound.) -/
def DrawOp.visible : DrawOp → Bool
  | .clear _ => true
  | .line _ _ color _ => color.isSome
  | .rect _ _ _ _ color => color.isSome
  | .triangle _ _ _ color => color.isSome
  | .text _ _ _ color _ => color.isSome

/-- The coordinate-bearing shape commands: Line, Rect, Triangle, Print. -/
def DrawCommand.isShape : DrawCommand → Bool
  | .line _ _ _ _ => true
  | .rect _ _ _ _ _ => true
  | .triangle _ _ _ _ _ _ => true
  | .print _ _ _ _ => true
  | _ => false

/-- A command that installs a positive-alpha color. -/
def DrawCommand.setsColor : DrawCommand → Bool
  | .color _ _ _ a => decide (0 < a)
  | _ => false

/-- The explicit transparent render state: no stroke, fill or text color. -/
def DisplayData.noColor (d : DisplayData) : Prop :=
  d.stroke_color = none ∧ d.fill_color = none ∧ d.text_color = none

theorem foldl_eq_applyFIFO :
    ∀ (buf : List DrawCommand) (d : DisplayData),
      buf.foldl DisplayData.draw_command d = applyFIFO d buf := by
  intro buf
  induction buf with
  | nil => intro d; rfl
  | cons c rest ih => intro d; rw [List.foldl_cons, ih]; rfl

/-- C2: one invocation of the display's drawflush on the per-tick drawbuffer
applies each queued command exactly once, oldest first (the resulting render
state is the one-at-a-time FIFO application of the whole queue), increments
the operations counter once, returns Yield, and leaves the drawbuffer
empty. -/
theorem drawflush_drains (d : DisplayData) (buf : List DrawCommand) :
    drawflushInstruction d buf =
      ({ applyFIFO d buf with
          operations := (applyFIFO d buf).operations + 1 },
        [], .yield) := by
  unfold drawflushInstruction DisplayData.drawflush
  rw [foldl_eq_applyFIFO]

/-- C3 counterexample, both clauses of the claim at concrete commands on a
fresh surface with zero translation.  Size clause:
`Rect{x:1, y:1, width:-1, height:6, fill:true}` issues a rectangle whose
recorded width is the u32 cast 4294967295, so no rectangle of the command's
size `(-1, 6)` is issued.  Top-left clause:
`Rect{x:1, y:32767, width:5, height:1, fill:true}` computes `y + height` as
an `i16` sum that wraps to -32768, so the issued top-left pixel is
`(1, 33008)`, not the claimed `(1 + 0 - 1 + 1, 240 - (32767 + 1 + 0 - 1) - 1)
= (1, -32528)`. -/
theorem rect_size_counterexample :
    (¬ ∃ (tl : Point) (w h : Nat) (f : Bool) (col : Option Rgb),
      ((DisplayData.new 320 240).draw_command (.rect 1 1 (-1) 6 true)).ops
          = [DrawOp.rect tl w h f col]
        ∧ (w : Int) = -1 ∧ (h : Int) = 6)
    ∧ ¬ ∃ (w h : Nat) (f : Bool) (col : Option Rgb),
      ((DisplayData.new 240 240).draw_command
          (.rect 1 32767 5 1 true)).ops
        = [DrawOp.rect
            ⟨1 + 0 - 1 + 1, (240 : Int) - (32767 + 1 + 0 - 1) - 1⟩
            w h f col] := by
  constructor
  · rintro ⟨tl, w, h, f, col, hops, hw, hh⟩
    have hcomp : ((DisplayData.new 320 240).draw_command
        (.rect 1 1 (-1) 6 true)).ops
        = [DrawOp.rect ⟨1, 233⟩ 4294967295 6 true (some ⟨255, 255, 255⟩)] := by
      rfl
    rw [hcomp] at hops
    injection hops with h1 h2
    injection h1 with e1 e2 e3 e4 e5
    subst e2
    omega
  · rintro ⟨w, h, f, col, hops⟩
    have hcomp : ((DisplayData.new 240 240).draw_command
        (.rect 1 32767 5 1 true)).ops
        = [DrawOp.rect ⟨1, 33008⟩ 5 1 true (some ⟨255, 255, 255⟩)] := by
      rfl
    rw [hcomp] at hops
    injection hops with h1 h2
    injection h1 with e1 e2 e3 e4 e5
    injection e1 with f1 f2
    omega

/-- C3 (amended): for every render state with translation `(tx, ty)` on a
surface of height `H`, a `Rect{x, y, width, height, fill}` command issues
exactly one rectangle, whose top-left corner is
`(x + tx - 1 + 1, H - (wrap16(y + height) + ty - 1) - 1)` — the
bottom-left-anchored, origin-(1,1), y-inverted mapping of
`(x, y + height)` with the +1 pixel horizontal correction, where
`wrap16` is the two's-complement `i16` sum the renderer computes, equal to
`y + height` whenever that sum lies in the `i16` range — and whose size is
the u32 cast of `(width, height)`, which equals `(width, height)` itself
whenever both fields are nonnegative. -/
theorem rect_mapping (d : DisplayData) (x y width height : Int) (fill : Bool) :
    ((d.draw_command (.rect x y width height fill)).ops =
      d.ops ++ [DrawOp.rect
        ⟨x + d.translation.x - 1 + 1,
          (d.height : Int)
            - (i16wrap (y + height) + d.translation.y - 1) - 1⟩
        (u32cast width) (u32cast height) fill
        (if fill then d.fill_color else d.stroke_color)])
    ∧ (-32768 ≤ y + height → y + height ≤ 32767 →
        i16wrap (y + height) = y + height)
    ∧ (0 ≤ width → width < 2 ^ 32 → (u32cast width : Int) = width)
    ∧ (0 ≤ height → height < 2 ^ 32 → (u32cast height : Int) = height) := by
  have hcast : ∀ n : Int, 0 ≤ n → n < 2 ^ 32 → (u32cast n : Int) = n := by
    intro n h0 hlt
    unfold u32cast
    rw [Int.emod_eq_of_lt h0 hlt]
    exact Int.toNat_of_nonneg h0
  refine ⟨?_, ?_, hcast width, hcast height⟩
  · have hpoint : Point.add (d.point x (i16wrap (y + height))) ⟨1, 0⟩
        = ⟨x + d.translation.x - 1 + 1,
            (d.height : Int)
              - (i16wrap (y + height) + d.translation.y - 1) - 1⟩ := by
      simp only [DisplayData.point, Point.add, Point.mk.injEq]
      constructor <;> ring_nf
    show (d.emit _).ops = _
    rw [hpoint]
    rfl
  · intro hlo hhi
    unfold i16wrap
    omega

theorem draw_command_translation_eq (d : DisplayData) (c : DrawCommand)
    (h1 : ∀ a b, c ≠ .translate a b) (h2 : c ≠ .reset) :
    (d.draw_command c).translation = d.translation := by
  cases c <;>
    first
      | rfl
      | exact absurd rfl (h1 _ _)
      | exact absurd rfl h2

theorem foldl_translation_eq (buf : List DrawCommand) :
    ∀ d : DisplayData,
      (∀ c ∈ buf, (∀ a b, c ≠ DrawCommand.translate a b) ∧ c ≠ .reset) →
      (buf.foldl DisplayData.draw_command d).translation = d.translation := by
  induction buf with
  | nil => intro d _; rfl
  | cons c rest ih =>
    intro d h
    rw [List.foldl_cons, ih _ fun x hx => h x (List.mem_cons_of_mem c hx),
      draw_command_translation_eq d c (h c (List.mem_cons_self c rest)).1
        (h c (List.mem_cons_self c rest)).2]

/-- C5: `Translate{x,y}` adds `(x,y)` to the current translation offset; a
flush whose queue contains no `Translate` and no `Reset` leaves the
translation unchanged (it persists across flushes); `Reset` zeroes the
translation and leaves stroke color, fill color, text color and stroke width
exactly unchanged. -/
theorem translate_reset_semantics (d : DisplayData) (x y : Int)
    (buf : List DrawCommand) :
    ((d.draw_command (.translate x y)).translation
        = Point.add d.translation ⟨x, y⟩)
    ∧ ((∀ c ∈ buf, (∀ a b, c ≠ DrawCommand.translate a b) ∧ c ≠ .reset) →
        (d.drawflush buf).1.translation = d.translation)
    ∧ ((d.draw_command .reset).translation = ⟨0, 0⟩)
    ∧ ((d.draw_command .reset).stroke_color = d.stroke_color)
    ∧ ((d.draw_command .reset).fill_color = d.fill_color)
    ∧ ((d.draw_command .reset).text_color = d.text_color)
    ∧ ((d.draw_command .reset).stroke_width = d.stroke_width) := by
  refine ⟨rfl, ?_, rfl, rfl, rfl, rfl, rfl⟩
  intro h
  show ({ buf.foldl DisplayData.draw_command d with
      operations := (buf.foldl DisplayData.draw_command d).operations + 1
    } : DisplayData).translation = d.translation
  exact foldl_translation_eq buf d h

/-- Witness for C5: flushing a queue holding only a `Clear` leaves the zero
translation of a fresh display unchanged. -/
theorem translate_reset_semantics_witness :
    ((DisplayData.new 320 240).drawflush [.clear 1 2 3]).1.translation
      = ⟨0, 0⟩ := by
  have hc : ∀ c ∈ ([DrawCommand.clear 1 2 3] : List DrawCommand),
      (∀ a b, c ≠ DrawCommand.translate a b) ∧ c ≠ .reset := by
    intro c hcm
    simp only [List.mem_cons, List.not_mem_nil, or_false] at hcm
    subst hcm
    exact ⟨fun a b h => DrawCommand.noConfusion h,
      fun h => DrawCommand.noConfusion h⟩
  rw [(translate_reset_semantics (DisplayData.new 320 240) 0 0
    [.clear 1 2 3]).2.1 hc]
  rfl

theorem noColor_preserved (d : DisplayData) (c : DrawCommand)
    (hd : d.noColor) (hc : c.setsColor = false) :
    (d.draw_command c).noColor := by
  obtain ⟨h1, h2, h3⟩ := hd
  cases c with
  | color r g b a =>
    simp only [DrawCommand.setsColor, decide_eq_false_iff_not,
      Nat.not_lt] at hc
    have ha : a = 0 := Nat.le_zero.mp hc
    subst ha
    exact ⟨rfl, rfl, rfl⟩
  | _ => exact ⟨h1, h2, h3⟩

theorem noColor_shape_invisible (d : DisplayData) (c : DrawCommand)
    (hd : d.noColor) (hc : c.isShape = true) :
    ∃ new, (d.draw_command c).ops = d.ops ++ new
      ∧ ∀ op ∈ new, op.visible = false := by
  obtain ⟨h1, h2, h3⟩ := hd
  cases c with
  | line x1 y1 x2 y2 =>
    refine ⟨_, rfl, ?_⟩
    intro op hop
    simp only [List.mem_cons, List.not_mem_nil, or_false] at hop
    subst hop
    simp [DrawOp.visible, h1]
  | rect x y w h f =>
    refine ⟨_, rfl, ?_⟩
    intro op hop
    simp only [List.mem_cons, List.not_mem_nil, or_false] at hop
    subst hop
    cases f <;> simp [DrawOp.visible, h1, h2]
  | triangle x1 y1 x2 y2 x3 y3 =>
    refine ⟨_, rfl, ?_⟩
    intro op hop
    simp only [List.mem_cons, List.not_mem_nil, or_false] at hop
    subst hop
    simp [DrawOp.visible, h2]
  | print x y alignment text =>
    refine ⟨_, rfl, ?_⟩
    intro op hop
    simp only [DisplayData.draw_command, DisplayData.emit, List.mem_cons,
      List.not_mem_nil, or_false] at hop
    subst hop
    simp [DrawOp.visible, h3]
  | _ => cases hc

theorem draw_command_ops_extend (d : DisplayData) (c : DrawCommand)
    (hd : d.noColor) :
    ∀ op ∈ (d.draw_command c).ops,
      op ∈ d.ops ∨ op.visible = false ∨ ∃ rgb, op = DrawOp.clear rgb := by
  by_cases hs : c.isShape = true
  · obtain ⟨new, hnew, hinv⟩ := noColor_shape_invisible d c hd hs
    intro op hop
    rw [hnew, List.mem_append] at hop
    rcases hop with hop | hop
    · exact Or.inl hop
    · exact Or.inr (Or.inl (hinv op hop))
  · intro op hop
    cases c with
    | clear r g b =>
      simp only [DisplayData.draw_command, DisplayData.emit,
        List.mem_append, List.mem_cons, List.not_mem_nil, or_false] at hop
      rcases hop with hop | hop
      · exact Or.inl hop
      · exact Or.inr (Or.inr ⟨_, hop⟩)
    | line x1 y1 x2 y2 => exact absurd rfl hs
    | rect x y w h f => exact absurd rfl hs
    | triangle x1 y1 x2 y2 x3 y3 => exact absurd rfl hs
    | print x y alignment text => exact absurd rfl hs
    | _ => exact Or.inl hop

theorem applyFIFO_noColor_invisible (cmds : List DrawCommand) :
    ∀ d : DisplayData, d.noColor →
      (∀ c ∈ cmds, c.setsColor = false) →
      (applyFIFO d cmds).noColor
      ∧ ∀ op ∈ (applyFIFO d cmds).ops,
          op ∈ d.ops ∨ op.visible = false ∨ ∃ rgb, op = DrawOp.clear rgb := by
  induction cmds with
  | nil => intro d hd _; exact ⟨hd, fun op hop => Or.inl hop⟩
  | cons c rest ih =>
    intro d hd h
    have hc : c.setsColor = false := h c (List.mem_cons_self c rest)
    have hd' : (d.draw_command c).noColor := noColor_preserved d c hd hc
    obtain ⟨hnc, hops⟩ := ih (d.draw_command c) hd'
      fun x hx => h x (List.mem_cons_of_mem c hx)
    refine ⟨hnc, ?_⟩
    intro op hop
    rcases hops op hop with hop' | hop' | hop'
    · exact draw_command_ops_extend d c hd op hop'
    · exact Or.inr (Or.inl hop')
    · exact Or.inr (Or.inr hop')

/-- C6: a `Color{r,g,b,a}` with positive alpha sets the stroke, fill and text
colors all to `(r,g,b)`; with alpha 0 it sets all three to the explicit
no-color state; that state is preserved by every subsequent command that is
not a positive-alpha Color, in it every draw call issued by a Line, Rect,
Triangle or Print command carries no color and so renders no pixels, and over
any subsequent queue free of positive-alpha Colors every op on the surface is
a pre-existing one, a pixel-free one, or a Clear. -/
theorem color_alpha_semantics (d : DisplayData) (r g b a : Nat) :
    (0 < a →
      ((d.draw_command (.color r g b a)).stroke_color = some ⟨r, g, b⟩
        ∧ (d.draw_command (.color r g b a)).fill_color = some ⟨r, g, b⟩
        ∧ (d.draw_command (.color r g b a)).text_color = some ⟨r, g, b⟩))
    ∧ (d.draw_command (.color r g b 0)).noColor
    ∧ (∀ (e : DisplayData) (c : DrawCommand), e.noColor →
        c.setsColor = false → (e.draw_command c).noColor)
    ∧ (∀ (e : DisplayData) (c : DrawCommand), e.noColor → c.isShape = true →
        ∃ new, (e.draw_command c).ops = e.ops ++ new
          ∧ ∀ op ∈ new, op.visible = false)
    ∧ (∀ cmds : List DrawCommand, (∀ c ∈ cmds, c.setsColor = false) →
        ∀ op ∈ (applyFIFO (d.draw_command (.color r g b 0)) cmds).ops,
          op ∈ d.ops ∨ op.visible = false
            ∨ ∃ rgb, op = DrawOp.clear rgb) := by
  have hzero : (d.draw_command (.color r g b 0)).noColor :=
    ⟨by simp [DisplayData.draw_command], by simp [DisplayData.draw_command],
      by simp [DisplayData.draw_command]⟩
  refine ⟨?_, hzero, noColor_preserved, noColor_shape_invisible, ?_⟩
  · intro ha
    simp [DisplayData.draw_command, if_pos ha]
  · intro cmds hcmds op hop
    have hops0 : (d.draw_command (.color r g b 0)).ops = d.ops := rfl
    have := (applyFIFO_noColor_invisible cmds _ hzero hcmds).2 op hop
    rwa [hops0] at this

/-- Witness for C6: on a fresh display, `Color{a:0}` followed by a `Line`
issues only draw calls that render no pixels. -/
theorem color_alpha_semantics_witness :
    ∃ new,
      (((DisplayData.new 320 240).draw_command
          (.color 9 9 9 0)).draw_command (.line 0 0 10 0)).ops
        = ((DisplayData.new 320 240).draw_command (.color 9 9 9 0)).ops ++ new
      ∧ ∀ op ∈ new, op.visible = false := by
  refine (color_alpha_semantics (DisplayData.new 320 240) 9 9 9 0).2.2.2.1
    ((DisplayData.new 320 240).draw_command (.color 9 9 9 0))
    (.line 0 0 10 0)
    (color_alpha_semantics (DisplayData.new 320 240) 9 9 9 0).2.1
    rfl

/-- Witness for C3 (amended): `Rect{x:10, y:10, width:4, height:6, fill:true}`
on a fresh 320x240 display issues one filled rectangle with top-left
`(10, 224)` and size `(4, 6)`; the in-range `i16` sum 10 + 6 does not
wrap. -/
theorem rect_mapping_witness :
    ((DisplayData.new 320 240).draw_command (.rect 10 10 4 6 true)).ops
      = [DrawOp.rect ⟨10, 224⟩ 4 6 true (some ⟨255, 255, 255⟩)]
    ∧ i16wrap (10 + 6) = 10 + 6
    ∧ (u32cast 4 : Int) = 4 ∧ (u32cast 6 : Int) = 6 := by
  refine ⟨?_, ?_, ?_, ?_⟩
  · rw [(rect_mapping (DisplayData.new 320 240) 10 10 4 6 true).1]
    decide
  · exact (rect_mapping (DisplayData.new 320 240) 10 10 4 6 true).2.1
      (by decide) (by decide)
  · exact (rect_mapping (DisplayData.new 320 240) 10 10 4 6 true).2.2.1
      (by decide) (by decide)
  · exact (rect_mapping (DisplayData.new 320 240) 10 10 4 6 true).2.2.2
      (by decide) (by decide)

/-- Pull resistor configuration of a GPIO pin (embassy `Pull`). -/
inductive Pull where
  | pullNone
  | up
  | down
deriving DecidableEq, Repr

/-- Direction a GPIO pin is currently configured as. -/
inductive PinMode where
  | input
  | output
deriving DecidableEq, Repr

/-- A digital pin handle (embassy `Flex`): its configured mode, pull policy
and level.  `level` is the output latch in output mode and the level read
from the pad in input mode. -/
structure Pin where
  mode : PinMode
  pull : Pull
  level : Bool
deriving DecidableEq, Repr

/-- The sensor tags the bindings inspect (the external VM crate's
`LAccess`, restricted to the tags that appear in `src/`). -/
inductive LAccess where
  | memoryCapacity
  | bufferSize
  | displayWidth
  | displayHeight
  | operations
  | other
deriving DecidableEq, Repr

/-- The reason `GpioData::new` aborts: a duplicate pin id (the explicit
`panic!` in the source) or an index outside the 30-slot array (the array
indexing aborts). -/
inductive GpioNewError where
  | duplicate (i : Nat)
  | outOfBounds (i : Nat)
deriving DecidableEq, Repr

/-- The loop body of `GpioData::new`: fold the `(index, pin)` pairs into the
slot array, aborting on an out-of-range index or an already-populated slot. -/
def GpioData.newAux : List (Option Pin) → List (Nat × Pin) →
    Except GpioNewError (List (Option Pin))
  | pins, [] => .ok pins
  | pins, (i, pin) :: rest =>
    if i < pins.length then
      if (pins.getD i none).isSome then .error (.duplicate i)
      else GpioData.newAux (pins.set i (some pin)) rest
    else .error (.outOfBounds i)

/-- `GpioData::new`: start from 30 empty slots and assign each given pin to
its index, aborting on a duplicate assignment. -/
def GpioData.new (values : List (Nat × Pin)) :
    Except GpioNewError (List (Option Pin)) :=
  GpioData.newAux (List.replicate 30 none) values

/-- `GpioData::read`: if the address converts to an index whose slot holds a
pin, switch the pin to input mode and return its boolean level as a number;
otherwise return null.  Returns the new slot array and the value. -/
def GpioData.read (pins : List (Option Pin)) (address : LValue) :
    List (Option Pin) × LValue :=
  match address.num_usize with
  | some i =>
    match pins.get? i with
    | some (some pin) =>
      (pins.set i (some { pin with mode := .input }),
        .num (if pin.level then 1 else 0))
    | _ => (pins, .null)
  | none => (pins, .null)

/-- `GpioData::write`: if the address converts to an index whose slot holds a
pin, set the pin's pull from the value (null: no pull, truthy: pull-up,
falsy: pull-down), set its level from the value's truthiness, and switch it
to output mode; otherwise do nothing.  Always returns `Ok`. -/
def GpioData.write (pins : List (Option Pin)) (address value : LValue) :
    List (Option Pin) × InstructionResult :=
  match address.num_usize with
  | some i =>
    match pins.get? i with
    | some (some pin) =>
      (pins.set i (some { pin with
          pull := if value = LValue.null then Pull.pullNone
            else if value.truthy then Pull.up else Pull.down,
          level := value.truthy,
          mode := .output }), .ok)
    | _ => (pins, .ok)
  | none => (pins, .ok)

/-- `GpioData::sensor`: only `MemoryCapacity` is recognized, returning the
slot count. -/
def GpioData.sensor (pins : List (Option Pin)) (tag : LAccess) :
    Option LValue :=
  match tag with
  | .memoryCapacity => some (.num pins.length)
  | _ => none

/-- `UartData::read`: if the address is numerically 0 and the UART has a byte
ready, read and return one byte; otherwise return null without touching the
receive stream.  The stream is the list of bytes the buffered UART holds,
oldest first. -/
def UartData.read (rx : List Nat) (address : LValue) : List Nat × LValue :=
  if address.numi = 0 then
    match rx with
    | b :: rest => (rest, .num b)
    | [] => ([], .null)
  else (rx, .null)

/-- C8: if the address converts to an index whose slot holds a pin, read
switches that pin to input mode and returns its boolean level as a number,
and write sets the pin's pull, level and output mode; for every out-of-range,
non-convertible or unpopulated address, read returns null, write is a no-op
returning `Ok`, and both leave the slot array unchanged (both hooks are total
functions of the state: no abort path exists). -/
theorem gpio_read_write_inert (pins : List (Option Pin))
    (addr value : LValue) :
    (∀ i pin, addr.num_usize = some i → pins.get? i = some (some pin) →
      GpioData.read pins addr
          = (pins.set i (some { pin with mode := .input }),
              .num (if pin.level then 1 else 0))
        ∧ GpioData.write pins addr value
          = (pins.set i (some { pin with
              pull := if value = LValue.null then Pull.pullNone
                else if value.truthy then Pull.up else Pull.down,
              level := value.truthy,
              mode := .output }), .ok))
    ∧ ((∀ i, addr.num_usize = some i →
          ¬ ∃ pin, pins.get? i = some (some pin)) →
        GpioData.read pins addr = (pins, .null)
          ∧ GpioData.write pins addr value = (pins, .ok)) := by
  constructor
  · intro i pin hi hpin
    constructor
    · simp only [GpioData.read, hi, hpin]
    · simp only [GpioData.write, hi, hpin]
  · intro h
    constructor
    · cases haddr : addr.num_usize with
      | none => simp only [GpioData.read, haddr]
      | some i =>
        cases hpin : pins.get? i with
        | none => simp only [GpioData.read, haddr, hpin]
        | some o =>
          cases o with
          | none => simp only [GpioData.read, haddr, hpin]
          | some pin => exact absurd ⟨pin, hpin⟩ (h i haddr)
    · cases haddr : addr.num_usize with
      | none => simp only [GpioData.write, haddr]
      | some i =>
        cases hpin : pins.get? i with
        | none => simp only [GpioData.write, haddr, hpin]
        | some o =>
          cases o with
          | none => simp only [GpioData.write, haddr, hpin]
          | some pin => exact absurd ⟨pin, hpin⟩ (h i haddr)

/-- Witness for C8: reading populated slot 0 switches it to input mode and
returns its level 0; writing unpopulated address 5 is a no-op returning
`Ok`. -/
theorem gpio_read_write_inert_witness :
    GpioData.read [some ⟨PinMode.output, Pull.pullNone, false⟩, none]
        (.num 0)
      = ([some ⟨PinMode.input, Pull.pullNone, false⟩, none], .num 0)
    ∧ GpioData.write [some ⟨PinMode.output, Pull.pullNone, false⟩, none]
        (.num 5) (.num 1)
      = ([some ⟨PinMode.output, Pull.pullNone, false⟩, none], .ok) := by
  constructor
  · have h := (gpio_read_write_inert
      [some ⟨PinMode.output, Pull.pullNone, false⟩, none]
      (.num 0) (.num 1)).1 0 ⟨PinMode.output, Pull.pullNone, false⟩
      (by decide) (by decide)
    simpa using h.1
  · refine ((gpio_read_write_inert
      [some ⟨PinMode.output, Pull.pullNone, false⟩, none]
      (.num 5) (.num 1)).2 ?_).2
    intro i hi
    have hi5 : i = 5 := by
      simp only [LValue.num_usize, if_pos (by decide : (0 : Int) ≤ 5),
        Option.some.injEq] at hi
      omega
    subst hi5
    rintro ⟨pin, hpin⟩
    simp at hpin

theorem gpio_newAux_empty_of_ok (values : List (Nat × Pin)) :
    ∀ (pins pins' : List (Option Pin)),
      GpioData.newAux pins values = .ok pins' →
      ∀ j ∈ values.map Prod.fst, (pins.getD j none).isSome = false := by
  induction values with
  | nil => intro pins pins' _ j hj; cases hj
  | cons v rest ih =>
    intro pins pins' hok j hj
    obtain ⟨i, pin⟩ := v
    unfold GpioData.newAux at hok
    by_cases hlen : i < pins.length
    · rw [if_pos hlen] at hok
      by_cases hdup : (pins.getD i none).isSome
      · rw [if_pos hdup] at hok; cases hok
      · rw [if_neg hdup] at hok
        simp only [List.map_cons, List.mem_cons] at hj
        rcases hj with rfl | hj
        · exact eq_false_of_ne_true hdup
        · have hrec := ih (pins.set i (some pin)) pins' hok j hj
          by_cases hij : j = i
          · subst hij
            rw [List.getD_eq_getElem?_getD, List.getElem?_set_self hlen] at hrec
            simp at hrec
          · rwa [List.getD_eq_getElem?_getD,
              List.getElem?_set_ne (fun he => hij he.symm),
              ← List.getD_eq_getElem?_getD] at hrec
    · rw [if_neg hlen] at hok; cases hok

theorem gpio_newAux_nodup_of_ok (values : List (Nat × Pin)) :
    ∀ (pins pins' : List (Option Pin)),
      GpioData.newAux pins values = .ok pins' →
      (values.map Prod.fst).Nodup := by
  induction values with
  | nil => intro _ _ _; exact List.nodup_nil
  | cons v rest ih =>
    intro pins pins' hok
    obtain ⟨i, pin⟩ := v
    unfold GpioData.newAux at hok
    by_cases hlen : i < pins.length
    · rw [if_pos hlen] at hok
      by_cases hdup : (pins.getD i none).isSome
      · rw [if_pos hdup] at hok; cases hok
      · rw [if_neg hdup] at hok
        refine List.nodup_cons.mpr ⟨?_, ih _ _ hok⟩
        intro hmem
        have := gpio_newAux_empty_of_ok rest _ _ hok i hmem
        rw [List.getD_eq_getElem?_getD, List.getElem?_set_self hlen] at this
        simp at this
    · rw [if_neg hlen] at hok; cases hok

theorem gpio_newAux_ok_of_good (values : List (Nat × Pin)) :
    ∀ pins : List (Option Pin),
      (∀ j ∈ values.map Prod.fst, j < pins.length) →
      (values.map Prod.fst).Nodup →
      (∀ j ∈ values.map Prod.fst, (pins.getD j none).isSome = false) →
      ∃ pins', GpioData.newAux pins values = .ok pins'
        ∧ pins'.length = pins.length
        ∧ ∀ j, (pins'.getD j none).isSome
            = ((pins.getD j none).isSome || decide (j ∈ values.map Prod.fst)) := by
  induction values with
  | nil =>
    intro pins _ _ _
    exact ⟨pins, rfl, rfl, fun j => by simp⟩
  | cons v rest ih =>
    intro pins hlen hnodup hempty
    obtain ⟨i, pin⟩ := v
    have hi : i < pins.length :=
      hlen i (List.mem_cons_self i (rest.map Prod.fst))
    have hie : (pins.getD i none).isSome = false :=
      hempty i (List.mem_cons_self i (rest.map Prod.fst))
    have hnodup' := List.nodup_cons.mp hnodup
    have hlenrec : ∀ j ∈ rest.map Prod.fst,
        j < (pins.set i (some pin)).length := by
      intro j hj
      rw [List.length_set]
      exact hlen j (List.mem_cons_of_mem i hj)
    have hemptyrec : ∀ j ∈ rest.map Prod.fst,
        ((pins.set i (some pin)).getD j none).isSome = false := by
      intro j hj
      have hij : j ≠ i := fun he => hnodup'.1 (he ▸ hj)
      rw [List.getD_eq_getElem?_getD,
        List.getElem?_set_ne (fun he => hij he.symm),
        ← List.getD_eq_getElem?_getD]
      exact hempty j (List.mem_cons_of_mem i hj)
    obtain ⟨pins', hok, hlen', hchar⟩ :=
      ih (pins.set i (some pin)) hlenrec hnodup'.2 hemptyrec
    refine ⟨pins', ?_, by rw [hlen', List.length_set], ?_⟩
    · unfold GpioData.newAux
      rw [if_pos hi,
        if_neg (by intro hcond; rw [hie] at hcond; exact
          Bool.false_ne_true hcond)]
      exact hok
    · intro j
      rw [hchar j]
      by_cases hij : j = i
      · subst hij
        rw [List.getD_eq_getElem?_getD, List.getElem?_set_self hi]
        simp
      · rw [List.getD_eq_getElem?_getD,
          List.getElem?_set_ne (fun he => hij he.symm),
          ← List.getD_eq_getElem?_getD]
        simp only [List.map_cons, List.mem_cons]
        congr 1
        simp [hij]

/-- C9: if any pin index appears twice in the constructor's input,
construction aborts (it can never return a slot array); if all indices are
distinct and below 30, construction succeeds with exactly the given slots
populated; and the read/write hooks never change which slots are populated,
so no duplicate-assignment fault can arise at runtime through them. -/
theorem gpio_new_duplicate_aborts (values : List (Nat × Pin)) :
    (¬ (values.map Prod.fst).Nodup →
      ∀ pins, GpioData.new values ≠ .ok pins)
    ∧ ((values.map Prod.fst).Nodup →
        (∀ j ∈ values.map Prod.fst, j < 30) →
        ∃ pins, GpioData.new values = .ok pins
          ∧ pins.length = 30
          ∧ ∀ j, (pins.getD j none).isSome
              = decide (j ∈ values.map Prod.fst))
    ∧ (∀ (pins : List (Option Pin)) (addr value : LValue),
        (GpioData.read pins addr).1.map Option.isSome
            = pins.map Option.isSome
          ∧ (GpioData.write pins addr value).1.map Option.isSome
            = pins.map Option.isSome) := by
  refine ⟨?_, ?_, ?_⟩
  · intro hdup pins hok
    exact hdup (gpio_newAux_nodup_of_ok values _ _ hok)
  · intro hnodup hlt
    obtain ⟨pins, hok, hlen, hchar⟩ :=
      gpio_newAux_ok_of_good values (List.replicate 30 none)
        (fun j hj => by rw [List.length_replicate]; exact hlt j hj)
        hnodup
        (fun j hj => by
          rw [List.getD_eq_getElem?_getD]
          rcases lt_or_ge j 30 with h | h
          · rw [List.getElem?_replicate, if_pos h]; rfl
          · rw [List.getElem?_eq_none (by simpa using h)]; rfl)
    refine ⟨pins, hok, by rw [hlen, List.length_replicate], ?_⟩
    intro j
    rw [hchar j, List.getD_eq_getElem?_getD]
    rcases lt_or_ge j 30 with h | h
    · rw [List.getElem?_replicate, if_pos h]; rfl
    · rw [List.getElem?_eq_none (by simpa using h)]; rfl
  · intro pins addr value
    have hext : ∀ (i : Nat) (pin q : Pin), pins.get? i = some (some pin) →
        (pins.set i (some q)).map Option.isSome
          = pins.map Option.isSome := by
      intro i pin q hpin
      rw [List.get?_eq_getElem?] at hpin
      have hi : i < pins.length := by
        by_contra hge
        rw [List.getElem?_eq_none (Nat.le_of_not_lt hge)] at hpin
        cases hpin
      apply List.ext_getElem?
      intro j
      by_cases hij : j = i
      · subst hij
        rw [List.getElem?_map, List.getElem?_map,
          List.getElem?_set_self hi, hpin]
        rfl
      · rw [List.getElem?_map, List.getElem?_map,
          List.getElem?_set_ne (fun he => hij he.symm)]
    constructor
    · cases haddr : addr.num_usize with
      | none => simp only [GpioData.read, haddr]
      | some i =>
        cases hpin : pins.get? i with
        | none => simp only [GpioData.read, haddr, hpin]
        | some o =>
          cases o with
          | none => simp only [GpioData.read, haddr, hpin]
          | some pin =>
            simp only [GpioData.read, haddr, hpin]
            exact hext i pin _ hpin
    · cases haddr : addr.num_usize with
      | none => simp only [GpioData.write, haddr]
      | some i =>
        cases hpin : pins.get? i with
        | none => simp only [GpioData.write, haddr, hpin]
        | some o =>
          cases o with
          | none => simp only [GpioData.write, haddr, hpin]
          | some pin =>
            simp only [GpioData.write, haddr, hpin]
            exact hext i pin _ hpin

/-- A concrete pin assignment for exercising `GpioData.new`: distinct
indices 0 and 2. -/
def gpioTestPins : List (Nat × Pin) :=
  [(0, ⟨.input, .pullNone, false⟩), (2, ⟨.input, .pullNone, false⟩)]

/-- Witness for C9: constructing with pins at the distinct indices 0 and 2
succeeds, yields 30 slots, and populates exactly those two slots. -/
theorem gpio_new_duplicate_aborts_witness :
    ∃ pins, GpioData.new gpioTestPins = .ok pins
      ∧ pins.length = 30
      ∧ ∀ j, (pins.getD j none).isSome
          = decide (j ∈ gpioTestPins.map Prod.fst) :=
  (gpio_new_duplicate_aborts gpioTestPins).2.1 (by decide) (by decide)

/-- C10: the UART read hook returns a byte only when the address is
numerically 0 and a byte is ready; for every address that is not numerically
0 it returns null and consumes nothing from the receive stream (so the USB
transport's skip-ahead semantics do not apply here); at address 0 it
dequeues exactly one byte when one is ready and returns null on an empty
stream. -/
theorem uart_read_address_zero (rx : List Nat) (addr : LValue) :
    (addr.numi ≠ 0 → UartData.read rx addr = (rx, .null))
    ∧ (addr.numi = 0 → ∀ b rest, rx = b :: rest →
        UartData.read rx addr = (rest, .num b))
    ∧ (addr.numi = 0 → rx = [] → UartData.read rx addr = ([], .null)) := by
  refine ⟨?_, ?_, ?_⟩
  · intro h
    unfold UartData.read
    rw [if_neg h]
  · intro h b rest hrx
    subst hrx
    unfold UartData.read
    rw [if_pos h]
  · intro h hrx
    subst hrx
    unfold UartData.read
    rw [if_pos h]

/-- Witness for C10: on a stream holding bytes 7 then 8, address 3 returns
null and consumes nothing; address 0 dequeues and returns 7. -/
theorem uart_read_address_zero_witness :
    UartData.read [7, 8] (.num 3) = ([7, 8], .null)
    ∧ UartData.read [7, 8] (.num 0) = ([8], .num 7) := by
  constructor
  · exact (uart_read_address_zero [7, 8] (.num 3)).1 (by decide)
  · exact (uart_read_address_zero [7, 8] (.num 0)).2.1 (by decide) 7 [8] rfl

/-- Phase of the USB serial background receiver routine (`serial_data_task`):
either at the `read_packet` await, or holding a freshly received chunk while
waiting (yielding) for the ring buffer to drain before appending it. -/
inductive RxPhase where
  | reading
  | waiting (data : List Nat)
deriving DecidableEq, Repr

/-- Joint state of the receiver routine and the ring buffer, with two ghost
logs: `delivered` records every chunk accepted from the USB host, oldest
first, and `consumed` records every byte the read hook has removed from the
buffer, oldest first. -/
structure RxSystem where
  phase : RxPhase
  rx_buf : List Nat
  delivered : List (List Nat)
  consumed : List Nat
deriving DecidableEq, Repr

/-- Initial state: the routine is at `read_packet`, the buffer is empty. -/
def RxSystem.init : RxSystem := ⟨.reading, [], [], []⟩

/-- `Deque::push_back` on the capacity-`MAX_USB_PACKET_SIZE` ring buffer:
fails (the source `unwrap`s, i.e. aborts) when the buffer is full. -/
def pushBack (buf : List Nat) (b : Nat) : Option (List Nat) :=
  if buf.length < MAX_USB_PACKET_SIZE then some (buf ++ [b]) else none

/-- The `for` loop of `serial_data_task` appending a chunk byte by byte;
`none` models the abort of an `unwrap`ped failed push. -/
def pushAll (buf : List Nat) : List Nat → Option (List Nat)
  | [] => some buf
  | b :: rest =>
    match pushBack buf b with
    | some next => pushAll next rest
    | none => none

/-- One step of the receiver routine `serial_data_task`, as a small-step
relation.  `arrive`: `read_packet` returns a chunk of at most the packet
size (the routine accepts it without inspecting the buffer).  `waitYield`:
the buffer still holds undrained data, so the routine yields, touching
nothing.  `append`: the buffer has been fully drained, so the routine pushes
the chunk's bytes in order and returns to `read_packet`. -/
inductive RxTaskStep : RxSystem → RxSystem → Prop where
  | arrive (s : RxSystem) (data : List Nat)
      (hphase : s.phase = .reading)
      (hlen : data.length ≤ MAX_USB_PACKET_SIZE) :
      RxTaskStep s
        { s with
            phase := RxPhase.waiting data
            delivered := s.delivered ++ [data] }
  | waitYield (s : RxSystem) (data : List Nat)
      (hphase : s.phase = .waiting data)
      (hne : s.rx_buf ≠ []) :
      RxTaskStep s s
  | append (s : RxSystem) (data buf' : List Nat)
      (hphase : s.phase = .waiting data)
      (hempty : s.rx_buf = [])
      (hpush : pushAll s.rx_buf data = some buf') :
      RxTaskStep s { s with phase := RxPhase.reading, rx_buf := buf' }

/-- One step of the consumer: the USB serial read hook runs at some address,
leaving the buffer as `SerialData.read` does; the removed front bytes are
logged as consumed. -/
inductive RxConsumerStep : RxSystem → RxSystem → Prop where
  | read (s : RxSystem) (address : LValue) :
      RxConsumerStep s
        { s with
            rx_buf := (SerialData.read s.rx_buf address).1
            consumed := s.consumed ++ s.rx_buf.take
              (s.rx_buf.length
                - (SerialData.read s.rx_buf address).1.length) }

/-- A step of the whole system: the receiver routine or the consumer makes
progress (the cooperative scheduler interleaves them at yield points). -/
inductive RxStep : RxSystem → RxSystem → Prop where
  | task (s s' : RxSystem) (h : RxTaskStep s s') : RxStep s s'
  | consumer (s s' : RxSystem) (h : RxConsumerStep s s') : RxStep s s'

/-- Reachability from the initial state. -/
inductive RxReachable : RxSystem → Prop where
  | init : RxReachable RxSystem.init
  | step (s s' : RxSystem) (hr : RxReachable s) (hs : RxStep s s') :
      RxReachable s'

/-- The backpressure invariant: the buffer never holds more than one chunk
(at most the packet size), any pending chunk is at most one packet, and the
consumed bytes, the buffered bytes and the pending chunk together
re-assemble exactly the concatenation of all accepted chunks, in order. -/
def RxInv (s : RxSystem) : Prop :=
  s.rx_buf.length ≤ MAX_USB_PACKET_SIZE
  ∧ (∀ data, s.phase = .waiting data →
      data.length ≤ MAX_USB_PACKET_SIZE
      ∧ s.consumed ++ s.rx_buf ++ data = s.delivered.flatten)
  ∧ (s.phase = .reading → s.consumed ++ s.rx_buf = s.delivered.flatten)

theorem pushAll_some (data : List Nat) :
    ∀ buf : List Nat, buf.length + data.length ≤ MAX_USB_PACKET_SIZE →
      pushAll buf data = some (buf ++ data) := by
  induction data with
  | nil => intro buf _; simp [pushAll]
  | cons b rest ih =>
    intro buf h
    have hlt : buf.length < MAX_USB_PACKET_SIZE := by
      simp only [List.length_cons] at h
      omega
    show (match pushBack buf b with
      | some next => pushAll next rest
      | none => none) = some (buf ++ b :: rest)
    rw [pushBack, if_pos hlt]
    show pushAll (buf ++ [b]) rest = some (buf ++ b :: rest)
    rw [ih (buf ++ [b]) (by simp only [List.length_append,
      List.length_cons, List.length_nil] at h ⊢; omega)]
    simp

theorem serial_read_buf_cases (buf : List Nat) (a : LValue) :
    (SerialData.read buf a).1 = buf
    ∨ ∃ i, i < buf.length ∧ (SerialData.read buf a).1 = buf.drop (i + 1) := by
  cases ha : a.num_usize with
  | none => left; simp only [SerialData.read, ha]
  | some i =>
    by_cases hi : i < buf.length
    · right
      refine ⟨i, hi, ?_⟩
      simp only [SerialData.read, ha, if_pos hi, discardFront_eq_drop]
      rw [List.tail_drop]
    · left
      simp only [SerialData.read, ha, if_neg hi]

theorem rx_task_no_touch_nonempty (s s' : RxSystem)
    (hstep : RxTaskStep s s') (hne : s.rx_buf ≠ []) :
    s'.rx_buf = s.rx_buf := by
  cases hstep with
  | arrive data hphase hlen => rfl
  | waitYield data hphase hne2 => rfl
  | append data buf' hphase hempty hpush => exact absurd hempty hne

theorem rx_inv_step (s s' : RxSystem) (hstep : RxStep s s')
    (hinv : RxInv s) : RxInv s' := by
  obtain ⟨hlen, hwait, hread⟩ := hinv
  cases hstep with
  | task ht =>
    cases ht with
    | arrive data hphase hdlen =>
      refine ⟨hlen, ?_, ?_⟩
      · intro d hd
        have hd2 : RxPhase.waiting data = RxPhase.waiting d := hd
        injection hd2 with he
        subst he
        refine ⟨hdlen, ?_⟩
        show s.consumed ++ s.rx_buf ++ data = (s.delivered ++ [data]).flatten
        rw [List.flatten_append, ← hread hphase]
        simp
      · intro habs
        exact RxPhase.noConfusion
          (show RxPhase.waiting data = RxPhase.reading from habs)
    | waitYield data hphase hne => exact ⟨hlen, hwait, hread⟩
    | append data buf' hphase hempty hpush =>
      obtain ⟨hdlen, horder⟩ := hwait data hphase
      rw [hempty] at hpush
      rw [pushAll_some data [] (by simpa using hdlen)] at hpush
      injection hpush with hbuf
      refine ⟨?_, ?_, ?_⟩
      · show buf'.length ≤ MAX_USB_PACKET_SIZE
        rw [← hbuf]
        simpa using hdlen
      · intro d hd
        exact RxPhase.noConfusion
          (show RxPhase.reading = RxPhase.waiting d from hd)
      · intro _
        show s.consumed ++ buf' = s.delivered.flatten
        rw [← hbuf]
        rw [hempty] at horder
        simpa using horder
  | consumer hc =>
    cases hc with
    | read address =>
      rcases serial_read_buf_cases s.rx_buf address with he | ⟨i, hi, he⟩
      · refine ⟨?_, ?_, ?_⟩
        · show (SerialData.read s.rx_buf address).1.length
            ≤ MAX_USB_PACKET_SIZE
          rw [he]
          exact hlen
        · intro d hd
          obtain ⟨hdlen, horder⟩ := hwait d hd
          refine ⟨hdlen, ?_⟩
          show (s.consumed ++ s.rx_buf.take
              (s.rx_buf.length - (SerialData.read s.rx_buf address).1.length))
              ++ (SerialData.read s.rx_buf address).1 ++ d
            = s.delivered.flatten
          rw [he, Nat.sub_self, List.take_zero, List.append_nil]
          exact horder
        · intro hd
          have horder := hread hd
          show (s.consumed ++ s.rx_buf.take
              (s.rx_buf.length - (SerialData.read s.rx_buf address).1.length))
              ++ (SerialData.read s.rx_buf address).1
            = s.delivered.flatten
          rw [he, Nat.sub_self, List.take_zero, List.append_nil]
          exact horder
      · have hk : s.rx_buf.length
            - (SerialData.read s.rx_buf address).1.length = i + 1 := by
          rw [he, List.length_drop]
          exact Nat.sub_sub_self hi
        have hsplit : s.rx_buf.take (i + 1)
            ++ (SerialData.read s.rx_buf address).1 = s.rx_buf := by
          rw [he]
          exact List.take_append_drop (i + 1) s.rx_buf
        refine ⟨?_, ?_, ?_⟩
        · show (SerialData.read s.rx_buf address).1.length
            ≤ MAX_USB_PACKET_SIZE
          rw [he, List.length_drop]
          omega
        · intro d hd
          obtain ⟨hdlen, horder⟩ := hwait d hd
          refine ⟨hdlen, ?_⟩
          show (s.consumed ++ s.rx_buf.take
              (s.rx_buf.length - (SerialData.read s.rx_buf address).1.length))
              ++ (SerialData.read s.rx_buf address).1 ++ d
            = s.delivered.flatten
          rw [hk, List.append_assoc s.consumed, hsplit]
          exact horder
        · intro hd
          have horder := hread hd
          show (s.consumed ++ s.rx_buf.take
              (s.rx_buf.length - (SerialData.read s.rx_buf address).1.length))
              ++ (SerialData.read s.rx_buf address).1
            = s.delivered.flatten
          rw [hk, List.append_assoc, hsplit]
          exact horder

theorem rx_reachable_inv : ∀ s, RxReachable s → RxInv s := by
  intro s h
  induction h with
  | init =>
    refine ⟨Nat.zero_le _, ?_, fun _ => rfl⟩
    intro d hd
    exact RxPhase.noConfusion
      (show RxPhase.reading = RxPhase.waiting d from hd)
  | step s s' hr hs ih => exact rx_inv_step s s' hs ih

/-- C7: the USB receiver routine never appends bytes into the ring buffer
while it holds undrained data — every routine step from a state with a
non-empty buffer leaves the buffer exactly as it was, and the append runs
only from a fully drained buffer, where pushing a whole chunk always
succeeds (the per-byte `push_back` never hits a full buffer); consequently
every reachable state's buffer holds at most one chunk (at most the packet
size), and the consumed bytes, buffered bytes and pending chunk re-assemble
the accepted chunks in order — byte order is preserved within and across
chunks. -/
theorem serial_task_backpressure :
    (∀ s s', RxTaskStep s s' → s.rx_buf ≠ [] → s'.rx_buf = s.rx_buf)
    ∧ (∀ data : List Nat, data.length ≤ MAX_USB_PACKET_SIZE →
        pushAll [] data = some data)
    ∧ ∀ s, RxReachable s → RxInv s :=
  ⟨rx_task_no_touch_nonempty,
    fun data hlen => pushAll_some data [] (by simpa using hlen),
    rx_reachable_inv⟩

/-- Witness for C7: after the routine accepts the chunk `[10, 20]` from the
initial state, the invariant holds concretely, and pushing that chunk into
the drained buffer succeeds. -/
theorem serial_task_backpressure_witness :
    RxInv ⟨.waiting [10, 20], [], [[10, 20]], []⟩
    ∧ pushAll [] [10, 20] = some [10, 20] := by
  constructor
  · apply serial_task_backpressure.2.2
    have harr := RxTaskStep.arrive RxSystem.init [10, 20] rfl (by decide)
    have hstate : ({ RxSystem.init with
        phase := RxPhase.waiting [10, 20]
        delivered := RxSystem.init.delivered ++ [[10, 20]] } : RxSystem)
        = ⟨.waiting [10, 20], [], [[10, 20]], []⟩ := by decide
    rw [hstate] at harr
    exact RxReachable.step _ _ RxReachable.init (RxStep.task _ _ harr)
  · exact serial_task_backpressure.2.1 [10, 20] (by decide)
